import Mathlib

/-!
Verification of the chunk-embed-retrieve pipeline of the
Gemini-Document-QnA-RAG application.

The development shallowly embeds the Python source:

* `TextProcessor.chunk_and_embed` (src/background_tasks.py): sentence
  chunking via the list comprehension
  `[" ".join(sentences[i:i + chunk_size]) for i in range(0, len(sentences), chunk_size)]`,
  followed by one `db.add` per chunk and a single `db.commit()`.
* `get_similar_chunks` / `ask_question` (src/main.py): the SQL query
  `select(FileChunk).where(file_id = fid).order_by(l2_distance(q)).limit(10)`
  and the join `" ".join(chunk.chunk_text for chunk in similar_chunks)`.

Python strings are modelled by `String`, numeric vector components by `ℚ`
(ordering by L2 distance is the same as ordering by squared L2 distance,
which is exact over `ℚ`), and the database by an explicit list of rows in
insertion order.
-/

/-- Errors surfaced by the embedded code.  `valueError` models Python's
`ValueError: range() arg 3 must not be zero`; `persistenceError` models a
failing `db.commit()` (e.g. a foreign-key violation), the spec's
`PersistenceError`. -/
inductive DBError where
  | valueError
  | persistenceError
deriving DecidableEq, Repr

/-- Python `range(0, stop, k)` for a positive step `k`.  Per the CPython
documentation, for a positive step this is the sequence `r[i] = i * k`
for `0 ≤ i < (stop - 0 + k - 1) / k` (integer division). -/
def pyRange0 (stop k : Nat) : List Nat :=
  (List.range ((stop + k - 1) / k)).map (fun i => i * k)

/-- The chunk texts produced by `TextProcessor.chunk_and_embed` for a given
sentence list and a positive chunk size: Python's
`[" ".join(sentences[i:i + k]) for i in range(0, len(sentences), k)]`,
with the slice `sentences[i:i + k]` rendered as `(sentences.drop i).take k`. -/
def chunkTexts (sentences : List String) (k : Nat) : List String :=
  (pyRange0 sentences.length k).map
    (fun i => String.intercalate " " ((sentences.drop i).take k))

/-- The chunk-building step of `TextProcessor.chunk_and_embed`
(src/background_tasks.py lines 33-36) for an arbitrary integer
`chunk_size`, following Python `range` semantics: a zero step raises
`ValueError`; a negative step makes `range(0, len(sentences), step)` empty
(the stop `len(sentences)` is never below the start `0`), so the
comprehension yields no chunks. -/
def build_chunks (sentences : List String) (chunk_size : Int) : Except DBError (List String) :=
  if chunk_size = 0 then .error .valueError
  else if chunk_size < 0 then .ok []
  else .ok (chunkTexts sentences chunk_size.toNat)

/-- Fuelled worker for `sentenceGroups`: with enough fuel, peels off the
first `k` sentences as one group and recurses on the rest. -/
def sentenceGroupsF (k : Nat) : Nat → List String → List (List String)
  | _, [] => []
  | 0, _ :: _ => []
  | fuel + 1, a :: l => ((a :: l).take k) :: sentenceGroupsF k fuel ((a :: l).drop k)

/-- The consecutive sentence groups underlying the chunks: the first `k`
sentences, then the next `k`, and so on (the last group may be shorter).
The fuel `l.length` suffices because each step removes at least one
sentence when `1 ≤ k`.  Used to state what `chunkTexts` joins. -/
def sentenceGroups (k : Nat) (l : List String) : List (List String) :=
  sentenceGroupsF k l.length l

/-- Python `chunk.split(" ")` for the one-character separator used by the
chunk builder, modelled on the character list (Lean's `String.splitOn`
does not reduce in the kernel; `List.splitOn` on `Char` agrees with
Python's `str.split` for a single-character separator). -/
def py_split_space (s : String) : List String :=
  (s.toList.splitOn ' ').map (fun cs => String.mk cs)

/-! ### Structural lemmas about the chunk builder -/

/-- One step of the ceiling division counting the chunks. -/
theorem ceil_div_succ (n k : Nat) (hk : 1 ≤ k) (hn : 1 ≤ n) :
    (n + k - 1) / k = ((n - k) + k - 1) / k + 1 := by
  rcases le_or_lt k n with h | h
  · have h1 : n + k - 1 = (n - 1) + k := by omega
    have h2 : (n - k) + k - 1 = n - 1 := by omega
    rw [h1, h2, Nat.add_div_right _ (by omega : 0 < k)]
  · have h1 : n - k = 0 := by omega
    have h2 : (k - 1) / k = 0 := Nat.div_eq_of_lt (by omega)
    have h3 : (n + k - 1) / k = 1 :=
      Nat.div_eq_of_lt_le (by omega) (by omega)
    rw [h1, h3, Nat.zero_add, h2]

theorem chunkTexts_nil (k : Nat) : chunkTexts [] k = [] := by
  rcases k with _ | k
  · rfl
  · simp only [chunkTexts, pyRange0, List.length_nil]
    rw [Nat.div_eq_of_lt (by omega)]
    rfl

/-- Peeling one chunk off the comprehension over `range(0, len, k)`. -/
theorem chunkTexts_cons (k : Nat) (hk : 1 ≤ k) (a : String) (l : List String) :
    chunkTexts (a :: l) k =
      String.intercalate " " ((a :: l).take k) :: chunkTexts ((a :: l).drop k) k := by
  have hceil : ((a :: l).length + k - 1) / k
      = (((a :: l).length - k) + k - 1) / k + 1 :=
    ceil_div_succ _ k hk (by simp)
  simp only [chunkTexts, pyRange0, List.length_drop]
  rw [hceil, List.range_succ_eq_map]
  simp only [List.map_cons, List.map_map, Nat.zero_mul, List.drop_zero]
  refine congrArg₂ List.cons rfl (List.map_congr_left ?_)
  intro i _
  simp only [Function.comp_apply, List.drop_drop]
  have : k + i * k = Nat.succ i * k := by
    rw [Nat.succ_mul]; omega
  rw [this]

theorem sentenceGroupsF_nil (k f : Nat) : sentenceGroupsF k f [] = [] := by
  cases f <;> rfl

/-- `sentenceGroupsF` ignores the fuel once it covers the list length. -/
theorem sentenceGroupsF_fuel (k : Nat) (hk : 1 ≤ k) :
    ∀ f1 f2 (l : List String), l.length ≤ f1 → l.length ≤ f2 →
      sentenceGroupsF k f1 l = sentenceGroupsF k f2 l := by
  intro f1
  induction f1 with
  | zero =>
    intro f2 l h1 _
    have : l = [] := List.eq_nil_of_length_eq_zero (by omega)
    subst this
    rw [sentenceGroupsF_nil, sentenceGroupsF_nil]
  | succ f1 ih =>
    intro f2 l h1 h2
    match l with
    | [] => rw [sentenceGroupsF_nil, sentenceGroupsF_nil]
    | a :: l =>
      rcases f2 with _ | f2
      · simp only [List.length_cons] at h2; omega
      · simp only [sentenceGroupsF]
        refine congrArg₂ List.cons rfl (ih f2 ((a :: l).drop k) ?_ ?_) <;>
          simp only [List.length_drop, List.length_cons] at * <;> omega

theorem sentenceGroups_cons (k : Nat) (hk : 1 ≤ k) (a : String) (l : List String) :
    sentenceGroups k (a :: l) = (a :: l).take k :: sentenceGroups k ((a :: l).drop k) := by
  simp only [sentenceGroups, List.length_cons, sentenceGroupsF]
  refine congrArg₂ List.cons rfl (sentenceGroupsF_fuel k hk _ _ _ ?_ ?_) <;>
    simp only [List.length_drop, List.length_cons] <;> omega

/-- The chunk texts are exactly the space-joins of the consecutive
sentence groups. -/
theorem chunkTexts_eq_groups (k : Nat) (hk : 1 ≤ k) (l : List String) :
    chunkTexts l k = (sentenceGroups k l).map (String.intercalate " ") := by
  suffices h : ∀ n (l : List String), l.length ≤ n →
      chunkTexts l k = (sentenceGroups k l).map (String.intercalate " ") from
    h l.length l le_rfl
  intro n
  induction n with
  | zero =>
    intro l h1
    have : l = [] := List.eq_nil_of_length_eq_zero (by omega)
    subst this
    rw [chunkTexts_nil]
    rfl
  | succ n ih =>
    intro l h1
    match l with
    | [] => rw [chunkTexts_nil]; rfl
    | a :: l =>
      rw [chunkTexts_cons k hk, sentenceGroups_cons k hk, List.map_cons]
      refine congrArg₂ List.cons rfl (ih _ ?_)
      simp only [List.length_drop, List.length_cons] at *
      omega

/-- Concatenating the sentence groups gives back the sentence list. -/
theorem sentenceGroups_flatten (k : Nat) (hk : 1 ≤ k) (l : List String) :
    (sentenceGroups k l).flatten = l := by
  suffices h : ∀ n (l : List String), l.length ≤ n →
      (sentenceGroups k l).flatten = l from h l.length l le_rfl
  intro n
  induction n with
  | zero =>
    intro l h1
    have : l = [] := List.eq_nil_of_length_eq_zero (by omega)
    subst this; rfl
  | succ n ih =>
    intro l h1
    match l with
    | [] => rfl
    | a :: l =>
      rw [sentenceGroups_cons k hk, List.flatten_cons,
        ih _ (by simp only [List.length_drop, List.length_cons] at *; omega),
        List.take_append_drop]

/-- There are exactly `⌈length / k⌉` sentence groups. -/
theorem sentenceGroups_length (k : Nat) (hk : 1 ≤ k) (l : List String) :
    (sentenceGroups k l).length = (l.length + k - 1) / k := by
  suffices h : ∀ n (l : List String), l.length ≤ n →
      (sentenceGroups k l).length = (l.length + k - 1) / k from h l.length l le_rfl
  intro n
  induction n with
  | zero =>
    intro l h1
    have : l = [] := List.eq_nil_of_length_eq_zero (by omega)
    subst this
    simp only [List.length_nil]
    rw [Nat.div_eq_of_lt (by omega)]
    rfl
  | succ n ih =>
    intro l h1
    match l with
    | [] =>
      simp only [List.length_nil]
      rw [Nat.div_eq_of_lt (by omega)]
      rfl
    | a :: l =>
      rw [sentenceGroups_cons k hk, List.length_cons,
        ih _ (by simp only [List.length_drop, List.length_cons] at *; omega),
        List.length_drop,
        ceil_div_succ (a :: l).length k hk (by simp)]

theorem sentenceGroups_eq_nil_iff (k : Nat) (hk : 1 ≤ k) (l : List String) :
    sentenceGroups k l = [] ↔ l = [] := by
  constructor
  · intro h
    match l with
    | [] => rfl
    | a :: l => rw [sentenceGroups_cons k hk] at h; cases h
  · intro h; subst h; rfl

/-- Every sentence group is nonempty and holds at most `k` sentences. -/
theorem sentenceGroups_mem_length (k : Nat) (hk : 1 ≤ k) (l : List String)
    (g : List String) (hg : g ∈ sentenceGroups k l) :
    1 ≤ g.length ∧ g.length ≤ k := by
  suffices h : ∀ n (l g : List String), l.length ≤ n → g ∈ sentenceGroups k l →
      1 ≤ g.length ∧ g.length ≤ k from h l.length l g le_rfl hg
  clear hg l g
  intro n
  induction n with
  | zero =>
    intro l g h1 hg
    have : l = [] := List.eq_nil_of_length_eq_zero (by omega)
    subst this
    cases hg
  | succ n ih =>
    intro l g h1 hg
    match l with
    | [] => cases hg
    | a :: l =>
      rw [sentenceGroups_cons k hk] at hg
      rcases List.mem_cons.mp hg with h | h
      · subst h
        simp only [List.length_take, List.length_cons]
        omega
      · exact ih _ _ (by simp only [List.length_drop, List.length_cons] at *; omega) h

/-- Every sentence group except possibly the last holds exactly `k`
sentences. -/
theorem sentenceGroups_dropLast_length (k : Nat) (hk : 1 ≤ k) (l : List String)
    (g : List String) (hg : g ∈ (sentenceGroups k l).dropLast) :
    g.length = k := by
  suffices h : ∀ n (l g : List String), l.length ≤ n →
      g ∈ (sentenceGroups k l).dropLast → g.length = k from h l.length l g le_rfl hg
  clear hg l g
  intro n
  induction n with
  | zero =>
    intro l g h1 hg
    have : l = [] := List.eq_nil_of_length_eq_zero (by omega)
    subst this
    cases hg
  | succ n ih =>
    intro l g h1 hg
    match l with
    | [] => cases hg
    | a :: l =>
      rw [sentenceGroups_cons k hk] at hg
      by_cases hrest : sentenceGroups k ((a :: l).drop k) = []
      · rw [hrest] at hg; cases hg
      · rw [List.dropLast_cons_of_ne_nil hrest] at hg
        rcases List.mem_cons.mp hg with h | h
        · subst h
          have hdrop : (a :: l).drop k ≠ [] := by
            intro hc
            exact hrest ((sentenceGroups_eq_nil_iff k hk _).mpr hc)
          have : k < (a :: l).length := by
            by_contra hc
            exact hdrop (List.drop_eq_nil_of_le (by omega))
          simp only [List.length_take]
          omega
        · exact ih _ _ (by simp only [List.length_drop, List.length_cons] at *; omega) h

/-- The last sentence group holds `length % k` sentences, or `k` when the
length is an exact multiple of `k`. -/
theorem sentenceGroups_getLast (k : Nat) (hk : 1 ≤ k) (l : List String) (hl : l ≠ []) :
    ∃ g, (sentenceGroups k l).getLast? = some g ∧
      g.length = if l.length % k = 0 then k else l.length % k := by
  suffices h : ∀ n (l : List String), l.length ≤ n → l ≠ [] →
      ∃ g, (sentenceGroups k l).getLast? = some g ∧
        g.length = if l.length % k = 0 then k else l.length % k from h l.length l le_rfl hl
  clear hl l
  intro n
  induction n with
  | zero =>
    intro l h1 hl
    exact absurd (List.eq_nil_of_length_eq_zero (by omega)) hl
  | succ n ih =>
    intro l h1 hl
    match l with
    | [] => exact absurd rfl hl
    | a :: l =>
      rw [sentenceGroups_cons k hk]
      by_cases hrest : sentenceGroups k ((a :: l).drop k) = []
      · have hdrop : (a :: l).drop k = [] := (sentenceGroups_eq_nil_iff k hk _).mp hrest
        have hle : (a :: l).length ≤ k := by
          by_contra hc
          have := List.length_drop k (a :: l)
          rw [hdrop] at this
          simp only [List.length_nil] at this
          omega
        refine ⟨(a :: l).take k, by rw [hrest]; rfl, ?_⟩
        simp only [List.length_take]
        rcases eq_or_lt_of_le hle with h | h
        · rw [← h, Nat.mod_self]
          simp
        · rw [Nat.mod_eq_of_lt h, if_neg (by simp only [List.length_cons]; omega)]
          omega
      · have hdrop : (a :: l).drop k ≠ [] := by
          intro hc
          exact hrest ((sentenceGroups_eq_nil_iff k hk _).mpr hc)
        obtain ⟨g, hg1, hg2⟩ := ih ((a :: l).drop k)
          (by simp only [List.length_drop, List.length_cons] at *; omega) hdrop
        refine ⟨g, ?_, ?_⟩
        · rw [List.getLast?_cons, hg1]
          simp [List.getLast?_eq_none_iff.mpr, hrest]
        · have hlt : k < (a :: l).length := by
            by_contra hc
            exact hdrop (List.drop_eq_nil_of_le (by omega))
          have hmod : ((a :: l).drop k).length % k = (a :: l).length % k := by
            rw [List.length_drop]
            conv_rhs => rw [show (a :: l).length = ((a :: l).length - k) + k by omega]
            rw [Nat.add_mod_right]
          rw [hg2, hmod]

/-! ### The chunk store and the retrieval query -/

/-- A row of the `file_chunks` table (src/db.py): owning file, chunk text,
and embedding vector.  Vector components are modelled as rationals.  The
table is a list of such rows in insertion order (the serial primary key
ascends with insertion, so list position is insertion order). -/
structure FileChunkRec where
  file_id : Int
  chunk_text : String
  embedding_vector : List ℚ
deriving DecidableEq, Repr

/-- Squared L2 distance between two vectors.  `pgvector`'s `l2_distance`
is its square root; the square root is monotone, so ordering rows by
`l2_distance` is the same as ordering them by `sqDist`, which is exact
over `ℚ`. -/
def sqDist (v w : List ℚ) : ℚ :=
  ((v.zip w).map (fun p => (p.1 - p.2) ^ 2)).sum

/-- The comparison realised by `ORDER BY embedding_vector.l2_distance(q)`. -/
def distLE (q : List ℚ) (a b : FileChunkRec) : Prop :=
  sqDist a.embedding_vector q ≤ sqDist b.embedding_vector q

instance (q : List ℚ) : DecidableRel (distLE q) := fun _ _ =>
  inferInstanceAs (Decidable (_ ≤ _))

/-- The results admissible for `get_similar_chunks` (src/main.py lines
100-107).  The SQL query
`SELECT * FROM file_chunks WHERE file_id = fid ORDER BY l2_distance(v, q) LIMIT k`
returns the first `k` rows of some ordering of the filtered rows that is
consistent with the sort key; SQL `ORDER BY` does not specify the relative
order of rows whose sort keys are equal, so the query denotes a set of
admissible results rather than one list. -/
def validNearest (db : List FileChunkRec) (fid : Int) (q : List ℚ) (k : Nat)
    (R : List FileChunkRec) : Prop :=
  ∃ S : List FileChunkRec,
    (db.filter (fun c => c.file_id == fid)).Perm S ∧
    S.Sorted (distLE q) ∧ R = S.take k

/-- Some admissible result always exists (sorting the filtered rows). -/
theorem validNearest_exists (db : List FileChunkRec) (fid : Int) (q : List ℚ)
    (k : Nat) : ∃ R, validNearest db fid q k R := by
  haveI : IsTotal FileChunkRec (distLE q) := ⟨fun a b => le_total _ _⟩
  haveI : IsTrans FileChunkRec (distLE q) := ⟨fun _ _ _ => le_trans⟩
  exact ⟨_, List.insertionSort (distLE q) (db.filter (fun c => c.file_id == fid)),
    (List.perm_insertionSort _ _).symm, List.sorted_insertionSort _ _, rfl⟩

/-- The context assembly of `ask_question` (src/main.py line 116):
`" ".join(chunk.chunk_text for chunk in similar_chunks)`. -/
def ask_context (similar_chunks : List FileChunkRec) : String :=
  String.intercalate " " (similar_chunks.map (fun c => c.chunk_text))

/-! ### The ingestion pipeline -/

/-- External collaborators of `chunk_and_embed`: NLTK's sentence
segmentation and the `SentenceTransformer` embedding are libraries outside
this repository, abstracted as function parameters of the model. -/
structure ExternalModels where
  segment : String → List String
  encode : String → List ℚ

/-- The `TextProcessor` constructor arguments (src/background_tasks.py
lines 20-25).  The constructor also loads a fresh `SentenceTransformer`;
that effect is counted by the process model below. -/
structure TextProcessor where
  file_id : Int
  chunk_size : Int := 2
deriving DecidableEq, Repr

/-- `TextProcessor.chunk_and_embed` (src/background_tasks.py lines 27-51)
as a transition on the committed `file_chunks` table: segment the text,
build the chunk list, embed each chunk, `db.add` one row per chunk, and
finish with a single `db.commit()`.  The per-chunk adds are pending inside
one session transaction, so the single commit persists the whole batch
atomically; the commit fails (the transaction rolls back and the committed
table is unchanged — an `.error` result carries no new table) if a row
violates the `file_id` foreign key into `files`. -/
def chunk_and_embed (ext : ExternalModels) (tp : TextProcessor)
    (files : List Int) (db : List FileChunkRec) (text : String) :
    Except DBError (List FileChunkRec) :=
  (build_chunks (ext.segment text) tp.chunk_size).bind (fun chunks =>
    let pending : List FileChunkRec := chunks.map (fun c =>
      { file_id := tp.file_id, chunk_text := c, embedding_vector := ext.encode c })
    if pending.all (fun c => files.contains c.file_id) then .ok (db ++ pending)
    else .error .persistenceError)

/-! ### The process model: uploads and questions -/

/-- The two requests the pipeline serves: `/uploadfile/` commits a `File`
row, constructs a `TextProcessor` (which loads a `SentenceTransformer`),
and schedules `chunk_and_embed`; `/ask/` calls `get_similar_chunks`, which
constructs another `SentenceTransformer` (src/main.py lines 95-96) before
querying. -/
inductive Op where
  | upload (text : String)
  | ask (fid : Int) (q : List ℚ)

/-- Process state: the committed tables plus a count of how many times a
`SentenceTransformer` has been constructed (the model-initialization count
the spec talks about). -/
structure Sys where
  modelInits : Nat
  files : List Int
  chunks : List FileChunkRec
  nextFileId : Int
deriving Repr

def initSys : Sys := ⟨0, [], [], 1⟩

/-- One request.  `upload` commits the `File` row, constructs a
`TextProcessor` (one model load) and runs the background
`chunk_and_embed`; a failing background task leaves the chunk table
unchanged.  `ask` constructs a fresh `SentenceTransformer` (one model
load) and only reads the tables. -/
def step (ext : ExternalModels) (s : Sys) : Op → Sys
  | .upload text =>
      let files := s.files ++ [s.nextFileId]
      match chunk_and_embed ext ⟨s.nextFileId, 2⟩ files s.chunks text with
      | .ok db2 => ⟨s.modelInits + 1, files, db2, s.nextFileId + 1⟩
      | .error _ => ⟨s.modelInits + 1, files, s.chunks, s.nextFileId + 1⟩
  | .ask _ _ => { s with modelInits := s.modelInits + 1 }

def runOps (ext : ExternalModels) (s : Sys) (ops : List Op) : Sys :=
  ops.foldl (step ext) s

/-- Concrete external collaborators used for closed-term runs. -/
def extTriv : ExternalModels := ⟨fun t => [t], fun _ => []⟩

theorem step_modelInits (ext : ExternalModels) (s : Sys) (op : Op) :
    (step ext s op).modelInits = s.modelInits + 1 := by
  cases op with
  | upload text =>
    cases h : chunk_and_embed ext ⟨s.nextFileId, 2⟩ (s.files ++ [s.nextFileId]) s.chunks text <;>
      simp [step, h]
  | ask fid q => rfl

/-- Inversion for a successful `chunk_and_embed` run: the new table is the
old one with the whole embedded batch appended, and every batch row passed
the foreign-key check. -/
theorem chunk_and_embed_ok_iff (ext : ExternalModels) (tp : TextProcessor)
    (files : List Int) (db : List FileChunkRec) (text : String)
    (db' : List FileChunkRec) :
    chunk_and_embed ext tp files db text = .ok db' ↔
      ∃ chunks, build_chunks (ext.segment text) tp.chunk_size = .ok chunks ∧
        (chunks.map (fun c =>
            ({ file_id := tp.file_id, chunk_text := c,
               embedding_vector := ext.encode c } : FileChunkRec))).all
          (fun c => files.contains c.file_id) = true ∧
        db' = db ++ chunks.map (fun c =>
          ({ file_id := tp.file_id, chunk_text := c,
             embedding_vector := ext.encode c } : FileChunkRec)) := by
  unfold chunk_and_embed
  cases hb : build_chunks (ext.segment text) tp.chunk_size with
  | error e =>
    simp only [Except.bind]
    constructor
    · intro h; cases h
    · rintro ⟨chunks, hc, -, -⟩; cases hc
  | ok chunks =>
    simp only [Except.bind]
    by_cases hall : (chunks.map (fun c =>
        ({ file_id := tp.file_id, chunk_text := c,
           embedding_vector := ext.encode c } : FileChunkRec))).all
        (fun c => files.contains c.file_id) = true
    · rw [if_pos hall]
      constructor
      · intro h
        exact ⟨chunks, rfl, hall, (Except.ok.injEq _ _ ▸ h).symm⟩
      · rintro ⟨chunks', hc, -, rfl⟩
        obtain rfl : chunks = chunks' := by
          have := hc
          rw [Except.ok.injEq] at this
          exact this
        rfl
    · rw [if_neg hall]
      constructor
      · intro h; cases h
      · rintro ⟨chunks', hc, hall', rfl⟩
        obtain rfl : chunks = chunks' := by
          rw [Except.ok.injEq] at hc
          exact hc
        exact absurd hall' hall

/-! ### Claim theorems -/

/-- C1 (amended): for every `chunk_size ≥ 1` and sentence sequence of
length `N`, `build_chunks` produces `⌈N / chunk_size⌉` chunks, each chunk
the space-joined concatenation of consecutive sentences in original order
— every underlying sentence group except the last holding exactly
`chunk_size` sentences and the last holding `N mod chunk_size` sentences
(`chunk_size` when `N` is an exact multiple) — and the concatenation of
the underlying sentence groups in order reproduces the original sentence
sequence exactly; the empty sentence sequence yields an empty chunk
sequence.  (Splitting the chunks back on the space separator is not part
of the guarantee, since sentences may themselves contain spaces.) -/
theorem build_chunks_spec (sentences : List String) (k : Nat) (hk : 1 ≤ k) :
    build_chunks sentences (k : Int) =
      .ok ((sentenceGroups k sentences).map (String.intercalate " ")) ∧
    (sentenceGroups k sentences).length = (sentences.length + k - 1) / k ∧
    (sentenceGroups k sentences).flatten = sentences ∧
    (∀ g ∈ sentenceGroups k sentences, 1 ≤ g.length ∧ g.length ≤ k) ∧
    (∀ g ∈ (sentenceGroups k sentences).dropLast, g.length = k) ∧
    (sentences ≠ [] → ∃ g, (sentenceGroups k sentences).getLast? = some g ∧
      g.length = if sentences.length % k = 0 then k else sentences.length % k) ∧
    (sentences = [] → build_chunks sentences (k : Int) = .ok []) := by
  have hne : ¬ ((k : Int) = 0) := by omega
  have hnlt : ¬ ((k : Int) < 0) := by omega
  have htn : (k : Int).toNat = k := by omega
  have hbc : build_chunks sentences (k : Int) = .ok (chunkTexts sentences k) := by
    unfold build_chunks
    rw [if_neg hne, if_neg hnlt, htn]
  refine ⟨?_, sentenceGroups_length k hk sentences, sentenceGroups_flatten k hk sentences,
    fun g hg => sentenceGroups_mem_length k hk sentences g hg,
    fun g hg => sentenceGroups_dropLast_length k hk sentences g hg,
    fun h => sentenceGroups_getLast k hk sentences h, fun h => ?_⟩
  · rw [hbc, chunkTexts_eq_groups k hk]
  · subst h
    rw [hbc, chunkTexts_nil]

/-- Witness for `build_chunks_spec` at `sentences = ["a", "b", "c"]` and
`chunk_size = 2`. -/
theorem build_chunks_spec_witness :
    build_chunks ["a", "b", "c"] ((2 : Nat) : Int) = .ok ["a b", "c"] :=
  (build_chunks_spec ["a", "b", "c"] 2 (by omega)).1.trans rfl

/-- C1 (counterexample to the claim as stated): for the single sentence
`"a b"`, which contains a space, and `chunk_size = 1`, the produced chunk
sequence is `["a b"]`, but splitting the chunks back on the join separator
yields `["a", "b"]`, not the original sentence sequence `["a b"]`. -/
theorem build_chunks_split_cex :
    build_chunks ["a b"] 1 = .ok ["a b"] ∧
    (["a b"].map py_split_space).flatten = ["a", "b"] ∧
    (["a", "b"] : List String) ≠ ["a b"] :=
  ⟨rfl, by decide, by decide⟩

/-- C4 (amended): a zero `chunk_size` makes chunk building fail with
Python's `ValueError` (raised by `range`), a negative `chunk_size`
silently yields the empty chunk sequence with no error, and any
`chunk_size ≥ 1` succeeds. -/
theorem build_chunks_chunk_size_spec (sentences : List String) (chunk_size : Int) :
    (chunk_size = 0 → build_chunks sentences chunk_size = .error .valueError) ∧
    (chunk_size < 0 → build_chunks sentences chunk_size = .ok []) ∧
    (1 ≤ chunk_size → ∃ chunks, build_chunks sentences chunk_size = .ok chunks) := by
  refine ⟨fun h => by simp [build_chunks, h], fun h => ?_, fun h => ?_⟩
  · unfold build_chunks
    rw [if_neg (by omega), if_pos h]
  · exact ⟨_, by unfold build_chunks; rw [if_neg (by omega), if_neg (by omega)]⟩

/-- Witness for `build_chunks_chunk_size_spec`, each hypothesis discharged
at a concrete `chunk_size`. -/
theorem build_chunks_chunk_size_spec_witness :
    build_chunks ["s"] 0 = .error .valueError ∧
    build_chunks ["s"] (-2) = .ok [] ∧
    (build_chunks ["s"] 3).isOk = true := by
  refine ⟨(build_chunks_chunk_size_spec ["s"] 0).1 rfl,
    (build_chunks_chunk_size_spec ["s"] (-2)).2.1 (by omega), ?_⟩
  obtain ⟨chunks, hc⟩ := (build_chunks_chunk_size_spec ["s"] 3).2.2 (by omega)
  rw [hc]
  rfl

/-- C4 (counterexample to the claim as stated): with `chunk_size = -1` and
two sentences, `build_chunks` raises no error at all and returns a chunk
sequence (the empty one) instead of failing with a configuration error:
Python's `range(0, 2, -1)` is simply empty. -/
theorem build_chunks_negative_cex :
    build_chunks ["s1", "s2"] (-1) = .ok [] ∧
    build_chunks ["s1", "s2"] (-1) ≠ .error .valueError ∧
    build_chunks ["s1", "s2"] (-1) ≠ .error .persistenceError :=
  ⟨rfl, fun h => Except.noConfusion h, fun h => Except.noConfusion h⟩

/-- C2: every admissible result of the `get_similar_chunks` query has at
most `k` rows, contains only rows of the requested document, is sorted by
non-decreasing L2 distance to the query vector (equivalently, by `sqDist`),
and is empty when the document has no stored chunks; moreover an
admissible result always exists, so a chunk-less document yields the empty
sequence rather than an error. -/
theorem get_similar_chunks_spec :
    (∀ (db : List FileChunkRec) (fid : Int) (q : List ℚ) (k : Nat)
        (R : List FileChunkRec), validNearest db fid q k R →
      R.length ≤ k ∧ (∀ c ∈ R, c.file_id = fid) ∧ R.Sorted (distLE q) ∧
        (db.filter (fun c => c.file_id == fid) = [] → R = [])) ∧
    (∀ (db : List FileChunkRec) (fid : Int) (q : List ℚ) (k : Nat),
      ∃ R, validNearest db fid q k R) := by
  refine ⟨?_, validNearest_exists⟩
  rintro db fid q k R ⟨S, hperm, hsort, rfl⟩
  refine ⟨?_, ?_, hsort.take, ?_⟩
  · rw [List.length_take]
    omega
  · intro c hc
    have hcf : c ∈ db.filter (fun c => c.file_id == fid) :=
      hperm.mem_iff.mpr (List.mem_of_mem_take hc)
    have := (List.mem_filter.mp hcf).2
    simpa using this
  · intro hf
    rw [hf] at hperm
    have hS : S = [] := hperm.nil_eq.symm
    rw [hS]
    exact List.take_nil

/-- Witness for `get_similar_chunks_spec`: a store holding one chunk of
document 1 and one chunk of document 2, queried for document 1. -/
theorem get_similar_chunks_spec_witness :
    (([⟨1, "t1", [0]⟩] : List FileChunkRec)).length ≤ 10 ∧
    (⟨1, "t1", [0]⟩ : FileChunkRec).file_id = 1 ∧
    ([⟨1, "t1", [0]⟩] : List FileChunkRec).Sorted (distLE [1]) := by
  have h := get_similar_chunks_spec.1 [⟨1, "t1", [0]⟩, ⟨2, "t2", [5]⟩] 1 [1] 10
    [⟨1, "t1", [0]⟩] ⟨[⟨1, "t1", [0]⟩], List.Perm.refl _, List.sorted_singleton _, rfl⟩
  exact ⟨h.1, h.2.1 _ (List.mem_singleton.mpr rfl), h.2.2.1⟩

/-- C6 (counterexample to the claim as stated): two chunks of document 1
are stored in the insertion order `c1, c2` and are equidistant from the
query vector `[1]`; the result `[c2, c1]` — the later-inserted chunk first
— is admissible for the query, so the retrieval does not guarantee
insertion-order tie-breaking. -/
theorem nearest_tie_cex :
    validNearest [⟨1, "t1", [0]⟩, ⟨1, "t2", [2]⟩] 1 [1] 10
      [⟨1, "t2", [2]⟩, ⟨1, "t1", [0]⟩] ∧
    sqDist [0] [1] = sqDist [2] [1] ∧
    (⟨1, "t1", [0]⟩ : FileChunkRec) ≠ ⟨1, "t2", [2]⟩ := by
  have htie : sqDist [(0 : ℚ)] [1] = sqDist [2] [1] := by
    simp [sqDist]
    norm_num
  refine ⟨⟨[⟨1, "t2", [2]⟩, ⟨1, "t1", [0]⟩], ?_, ?_, rfl⟩, htie, ?_⟩
  · exact List.Perm.swap _ _ _
  · exact List.sorted_cons.mpr
      ⟨fun b hb => by
        rw [List.mem_singleton.mp hb]
        exact le_of_eq htie.symm,
       List.sorted_singleton _⟩
  · intro h
    rw [FileChunkRec.mk.injEq] at h
    exact absurd h.2.1 (by decide)

/-- C6 (amended): when exactly two chunks of the document are stored and
they are equidistant from the query vector, both relative orders are
admissible results of the query; the ordering guarantee is only
non-decreasing distance, not insertion-order tie-breaking. -/
theorem nearest_tie_unspecified (db : List FileChunkRec) (fid : Int)
    (q : List ℚ) (k : Nat) (a b : FileChunkRec)
    (hfilter : db.filter (fun c => c.file_id == fid) = [a, b])
    (htie : sqDist a.embedding_vector q = sqDist b.embedding_vector q) :
    validNearest db fid q k ([a, b].take k) ∧
    validNearest db fid q k ([b, a].take k) := by
  constructor
  · refine ⟨[a, b], by rw [hfilter], ?_, rfl⟩
    exact List.sorted_cons.mpr
      ⟨fun c hc => by rw [List.mem_singleton.mp hc]; exact le_of_eq htie,
       List.sorted_singleton _⟩
  · refine ⟨[b, a], by rw [hfilter]; exact List.Perm.swap _ _ _, ?_, rfl⟩
    exact List.sorted_cons.mpr
      ⟨fun c hc => by rw [List.mem_singleton.mp hc]; exact le_of_eq htie.symm,
       List.sorted_singleton _⟩

/-- Witness for `nearest_tie_unspecified` at a concrete two-chunk store
with a distance tie and `k = 1`. -/
theorem nearest_tie_unspecified_witness :
    validNearest [⟨1, "u1", [0]⟩, ⟨1, "u2", [2]⟩] 1 [1] 1
      (([⟨1, "u1", [0]⟩, ⟨1, "u2", [2]⟩] : List FileChunkRec).take 1) ∧
    validNearest [⟨1, "u1", [0]⟩, ⟨1, "u2", [2]⟩] 1 [1] 1
      (([⟨1, "u2", [2]⟩, ⟨1, "u1", [0]⟩] : List FileChunkRec).take 1) := by
  apply nearest_tie_unspecified [⟨1, "u1", [0]⟩, ⟨1, "u2", [2]⟩] 1 [1] 1
    ⟨1, "u1", [0]⟩ ⟨1, "u2", [2]⟩ rfl
  simp [sqDist]
  norm_num

/-- C8: the answer context assembled by `ask_question` is exactly the
texts of the chunks returned by the retrieval query, joined with a single
space in the returned order; when the document has no chunks every
admissible result is empty and the context is the empty string, not an
error. -/
theorem ask_question_context_spec (db : List FileChunkRec) (fid : Int)
    (q : List ℚ) (R : List FileChunkRec) (h : validNearest db fid q 10 R) :
    ask_context R = String.intercalate " " (R.map (fun c => c.chunk_text)) ∧
    (db.filter (fun c => c.file_id == fid) = [] → ask_context R = "") := by
  refine ⟨rfl, fun hf => ?_⟩
  obtain ⟨S, hperm, hsort, rfl⟩ := h
  rw [hf] at hperm
  have hS : S = [] := hperm.nil_eq.symm
  rw [hS]
  rfl

/-- Witness for `ask_question_context_spec` at an empty store: the
assembled context is the empty string. -/
theorem ask_question_context_spec_witness : ask_context [] = "" :=
  (ask_question_context_spec [] 1 [] []
    ⟨[], List.Perm.refl _, List.sorted_nil, rfl⟩).2 rfl

/-- C3: a `chunk_and_embed` call persists its batch atomically.  Either
the committed table after the call is the old table with the entire
embedded batch appended, or — when a batch row violates the `file_id`
foreign key — the call fails with the persistence error and no partial
batch is committed (an `.error` result carries no new table: the single
transaction of the final `db.commit()` rolls back). -/
theorem chunk_and_embed_atomic (ext : ExternalModels) (tp : TextProcessor)
    (files : List Int) (db : List FileChunkRec) (text : String)
    (chunks : List String)
    (hc : build_chunks (ext.segment text) tp.chunk_size = .ok chunks) :
    chunk_and_embed ext tp files db text =
        .ok (db ++ chunks.map (fun c =>
          ({ file_id := tp.file_id, chunk_text := c,
             embedding_vector := ext.encode c } : FileChunkRec))) ∨
    (chunk_and_embed ext tp files db text = .error .persistenceError ∧
      files.contains tp.file_id = false ∧ chunks ≠ []) := by
  cases hfk : files.contains tp.file_id with
  | true =>
    left
    have hall : (chunks.map (fun c =>
        ({ file_id := tp.file_id, chunk_text := c,
           embedding_vector := ext.encode c } : FileChunkRec))).all
        (fun c => files.contains c.file_id) = true := by
      rw [List.all_eq_true]
      intro c hcm
      obtain ⟨x, _, rfl⟩ := List.mem_map.mp hcm
      exact hfk
    exact (chunk_and_embed_ok_iff ext tp files db text _).mpr ⟨chunks, hc, hall, rfl⟩
  | false =>
    cases hch : chunks with
    | nil =>
      left
      subst hch
      exact (chunk_and_embed_ok_iff ext tp files db text _).mpr ⟨[], hc, rfl, by simp⟩
    | cons c cs =>
      right
      subst hch
      refine ⟨?_, rfl, by simp⟩
      unfold chunk_and_embed
      rw [hc]
      have hall : ((c :: cs).map (fun c =>
          ({ file_id := tp.file_id, chunk_text := c,
             embedding_vector := ext.encode c } : FileChunkRec))).all
          (fun c => files.contains c.file_id) = false := by
        simp only [List.map_cons, List.all_cons, hfk, Bool.false_and]
      simp only [Except.bind, hall, Bool.false_eq_true, if_false]

/-- Witness for `chunk_and_embed_atomic`: one document, one chunk, a
satisfied foreign key. -/
theorem chunk_and_embed_atomic_witness :
    chunk_and_embed extTriv ⟨1, 2⟩ [1] [] "hello" =
        .ok ([] ++ (["hello"].map (fun c =>
          ({ file_id := 1, chunk_text := c,
             embedding_vector := extTriv.encode c } : FileChunkRec)))) ∨
    (chunk_and_embed extTriv ⟨1, 2⟩ [1] [] "hello" = .error .persistenceError ∧
      ([1] : List Int).contains 1 = false ∧ (["hello"] : List String) ≠ []) :=
  chunk_and_embed_atomic extTriv ⟨1, 2⟩ [1] [] "hello" ["hello"] rfl

/-- C7: re-running ingestion for the same document and the same raw text
appends a second, identical batch instead of replacing the first one.
Starting from a table without chunks for the document, two identical
successful `chunk_and_embed` runs leave the table extended by the batch
twice, holding exactly twice the chunks of one run for that `file_id`. -/
theorem chunk_and_embed_not_idempotent (ext : ExternalModels)
    (tp : TextProcessor) (files : List Int) (db : List FileChunkRec)
    (text : String) (db1 db2 : List FileChunkRec)
    (h1 : chunk_and_embed ext tp files db text = .ok db1)
    (h2 : chunk_and_embed ext tp files db1 text = .ok db2)
    (h0 : db.countP (fun c => c.file_id == tp.file_id) = 0) :
    ∃ batch : List FileChunkRec,
      db1 = db ++ batch ∧ db2 = db ++ batch ++ batch ∧
      db2.countP (fun c => c.file_id == tp.file_id) = 2 * batch.length := by
  obtain ⟨chunks1, hb1, _, rfl⟩ := (chunk_and_embed_ok_iff ext tp files db text db1).mp h1
  obtain ⟨chunks2, hb2, _, rfl⟩ :=
    (chunk_and_embed_ok_iff ext tp files _ text db2).mp h2
  obtain rfl : chunks1 = chunks2 := by
    rw [hb1, Except.ok.injEq] at hb2
    exact hb2
  refine ⟨_, rfl, rfl, ?_⟩
  have hbatch : (chunks1.map (fun c =>
      ({ file_id := tp.file_id, chunk_text := c,
         embedding_vector := ext.encode c } : FileChunkRec))).countP
      (fun c => c.file_id == tp.file_id) =
      (chunks1.map (fun c =>
        ({ file_id := tp.file_id, chunk_text := c,
           embedding_vector := ext.encode c } : FileChunkRec))).length := by
    rw [List.countP_eq_length]
    intro c hcm
    obtain ⟨x, _, rfl⟩ := List.mem_map.mp hcm
    exact beq_self_eq_true _
  rw [List.countP_append, List.countP_append, h0, hbatch]
  omega

/-- Witness for `chunk_and_embed_not_idempotent`: ingesting `"hi"` for
document 1 twice stores the single-chunk batch twice, so the document has
exactly two chunk rows. -/
theorem chunk_and_embed_not_idempotent_witness :
    ([⟨1, "hi", []⟩, ⟨1, "hi", []⟩] : List FileChunkRec).countP
      (fun c => c.file_id == (1 : Int)) = 2 * 1 := by
  obtain ⟨batch, h1, h2, h3⟩ := chunk_and_embed_not_idempotent extTriv ⟨1, 2⟩ [1] [] "hi"
    [⟨1, "hi", []⟩] [⟨1, "hi", []⟩, ⟨1, "hi", []⟩] rfl rfl rfl
  have hb : batch = [⟨1, "hi", []⟩] := by simpa using h1.symm
  rw [hb] at h3
  exact h3

/-- C10: every chunk row inserted by a single `chunk_and_embed` run
carries the `file_id` the `TextProcessor` was constructed with — one
ingestion run never attributes a chunk to another document. -/
theorem chunk_and_embed_ownership (ext : ExternalModels) (tp : TextProcessor)
    (files : List Int) (db : List FileChunkRec) (text : String)
    (db' : List FileChunkRec)
    (h : chunk_and_embed ext tp files db text = .ok db') :
    ∃ batch : List FileChunkRec,
      db' = db ++ batch ∧ ∀ c ∈ batch, c.file_id = tp.file_id := by
  obtain ⟨chunks, _, _, rfl⟩ := (chunk_and_embed_ok_iff ext tp files db text db').mp h
  refine ⟨_, rfl, fun c hcm => ?_⟩
  obtain ⟨x, _, rfl⟩ := List.mem_map.mp hcm
  rfl

/-- Witness for `chunk_and_embed_ownership` at a concrete ingestion run:
the one inserted chunk carries the constructor's `file_id`. -/
theorem chunk_and_embed_ownership_witness :
    (⟨7, "xyz", []⟩ : FileChunkRec).file_id = (7 : Int) := by
  obtain ⟨batch, h1, h2⟩ := chunk_and_embed_ownership extTriv ⟨7, 2⟩ [7] [] "xyz"
    [⟨7, "xyz", []⟩] rfl
  have hb : batch = [⟨7, "xyz", []⟩] := by simpa using h1.symm
  exact h2 _ (by rw [hb]; exact List.mem_singleton.mpr rfl)

/-- C5 (counterexample to the claim as stated): each call to
`get_similar_chunks` constructs a fresh `SentenceTransformer`
(src/main.py lines 95-96), so after a trace of two questions the
sentence-embedding model has been initialized twice — the
never-re-initialize invariant fails already on retrieval alone, and
likewise each `TextProcessor` construction loads the model again. -/
theorem model_reinit_cex :
    (runOps extTriv initSys [.ask 1 [], .ask 1 []]).modelInits = 2 ∧
    ¬ (runOps extTriv initSys [.ask 1 [], .ask 1 []]).modelInits ≤ 1 :=
  ⟨rfl, by decide⟩

/-- C5 (amended): far from loading the model once per process, every
operation — each upload (via `TextProcessor.__init__`) and each question
(via `get_similar_chunks`) — initializes its own embedding model: after
any trace the initialization count has grown by exactly the number of
operations. -/
theorem modelInits_counts_ops (ext : ExternalModels) (s : Sys) (ops : List Op) :
    (runOps ext s ops).modelInits = s.modelInits + ops.length := by
  induction ops generalizing s with
  | nil => rfl
  | cons op ops ih =>
    simp only [runOps, List.foldl_cons, List.length_cons]
    have := ih (step ext s op)
    simp only [runOps] at this
    rw [this, step_modelInits]
    omega

/-- The end-to-end scenario input (src/background_tasks_test.py). -/
def demoText : String :=
  "My Name is John. I live in New York. I love programming in Python. FastAPI is my favorite web framework. I am from the USA."

/-- Modelled from the spec: the sentence segmentation is NLTK's
`punkt`-based `sent_tokenize`, a library outside this repository; the
spec's end-to-end scenario fixes its output on `demoText` to these five
sentences.  Other inputs are left unsegmented (irrelevant here). -/
def sent_tokenize_demo (text : String) : List String :=
  if text = demoText then
    ["My Name is John.", "I live in New York.", "I love programming in Python.",
     "FastAPI is my favorite web framework.", "I am from the USA."]
  else [text]

/-- C9: on the end-to-end scenario input, segmentation yields exactly five
sentences and `build_chunks` with `chunk_size = 2` produces exactly the
three expected chunks, in order. -/
theorem demo_pipeline_spec :
    (sent_tokenize_demo demoText).length = 5 ∧
    build_chunks (sent_tokenize_demo demoText) 2 =
      .ok ["My Name is John. I live in New York.",
           "I love programming in Python. FastAPI is my favorite web framework.",
           "I am from the USA."] :=
  ⟨rfl, rfl⟩
